import Mathlib

/-!
Transitivity of binary relations in `agop` (`src/rel-transitive.cpp`) and the S-statistic
(`src/agops_classical.cpp`).

A shallow embedding of `rel_is_transitive`, `rel_closure_transitive`,
`rel_reduction_transitive` and `Sstat2`, followed by the properties proved about them.

The C functions work on an R logical matrix: an `int` buffer of `n*n` cells in
column-major order (cell `(i, j)` lives at offset `i + j*n`) together with the
`dim` and `dimnames` attributes.  Loop counters and offsets (`R_len_t`) are modelled as
natural numbers: the matrices considered have `n*n` within the range of `int`.
-/

namespace Agop

/-! ## Data model -/

/-- The three values an R logical cell can hold: `FALSE` (the int 0), `TRUE` (the int 1)
and `NA_LOGICAL` (the int `INT_MIN`). -/
inductive Logical where
  | FALSE
  | TRUE
  | NA_LOGICAL
  deriving DecidableEq

/-- C truthiness of a logical cell used as a condition (`if (c)`, `!c`, `a && b`):
the cell counts as true when its int is nonzero, which `NA_LOGICAL` (`INT_MIN`) is. -/
def Logical.truthy : Logical → Bool
  | .FALSE => false
  | .TRUE => true
  | .NA_LOGICAL => true

/-- The int a C boolean expression evaluates to, stored into a logical cell: 1 or 0. -/
def Logical.ofBool : Bool → Logical
  | true => .TRUE
  | false => .FALSE

/-- The `dimnames` attribute: optional row labels and optional column labels. -/
structure DimNames where
  rows : Option (List String)
  cols : Option (List String)
  deriving DecidableEq

/-- An R logical matrix as the C code sees it: the `INTEGER(x)` buffer (column-major),
the two entries of the `dim` attribute, and the `dimnames` attribute (absent = `none`). -/
structure LogicalMatrix where
  data : List Logical
  nrow : Nat
  ncol : Nat
  dimnames : Option DimNames
  deriving DecidableEq

/-- The ways a call can end in an R error instead of returning. -/
inductive Condition where
  /-- raised by `prepare_arg_logical_square_matrix` -/
  | InvalidShape
  /-- the call `Rf_error(MSG__ARG_EXPECTED_NOT_NA, arg)` -/
  | ArgExpectedNotNA (arg : String)
  /-- the call `Rf_error(msg)` with a literal message -/
  | Error (msg : String)
  deriving DecidableEq

/-- Read of the cell at offset `i` of an int buffer (`xp[i]`).  Every read the code performs
on an `n`×`n` matrix is at an offset below `n*n`; the default is never observed there. -/
def rd (xp : List Logical) (i : Nat) : Logical :=
  xp.getD i Logical.NA_LOGICAL

/-- Modelled from the spec: `prepare_arg_logical_square_matrix` is declared in `agop.h` and
defined outside `src/`.  The spec says the validation helpers hand the core a well-typed
square matrix, and that an input which is not square or whose dimensions are inconsistent
is a fatal `InvalidShape` error. -/
def prepare_arg_logical_square_matrix (x : LogicalMatrix) (_argname : String) :
    Except Condition LogicalMatrix :=
  if x.nrow = x.ncol ∧ x.data.length = x.nrow * x.ncol then .ok x else .error .InvalidShape

/-! ## `rel_is_transitive` -/

/-- Body of the `k` loop of `rel_is_transitive` (lines 45-48): `some v` is `return v`,
`none` is falling through to the next `k`. -/
def rel_is_transitive_k (n : Nat) (xp : List Logical) (i j k : Nat) : Option Logical :=
  if rd xp (i + k * n) = Logical.NA_LOGICAL ∨ rd xp (j + k * n) = Logical.NA_LOGICAL then
    some Logical.NA_LOGICAL
  else if (rd xp (j + k * n)).truthy && !(rd xp (i + k * n)).truthy then
    some Logical.FALSE
  else
    none

/-- Body of the `j` loop of `rel_is_transitive` (lines 40-49): `some v` is `return v`,
`none` is `continue` or reaching the end of the body. -/
def rel_is_transitive_j (n : Nat) (xp : List Logical) (i j : Nat) : Option Logical :=
  if i = j then none
  else if rd xp (i + j * n) = Logical.NA_LOGICAL then some Logical.NA_LOGICAL
  else if !(rd xp (i + j * n)).truthy then none
  else (List.range n).findSome? (rel_is_transitive_k n xp i j)

/-- The loop nest of `rel_is_transitive` (lines 38-52) on the buffer `xp` of an `n`×`n`
matrix: the first `return` met in loop order, or `TRUE` when the loops run to their end. -/
def rel_is_transitive_loops (n : Nat) (xp : List Logical) : Logical :=
  match (List.range n).findSome?
      (fun i => (List.range n).findSome? (rel_is_transitive_j n xp i)) with
  | some v => v
  | none => Logical.TRUE

/-- The function `rel_is_transitive` (lines 32-53). -/
def rel_is_transitive (x : LogicalMatrix) : Except Condition Logical :=
  match prepare_arg_logical_square_matrix x "R" with
  | .error e => .error e
  | .ok x => .ok (rel_is_transitive_loops x.nrow x.data)

/-! ## `rel_closure_transitive` -/

/-- The buffer of `Rf_allocVector(LGLSXP, len)`.  R leaves the cells uninitialised; the copy
loop overwrites every one of them before any is read, so the fill is never observed
(`copy_loop_alloc_irrelevant`). -/
def Rf_allocVector (len : Nat) : List Logical :=
  List.replicate len Logical.NA_LOGICAL

/-- One iteration of the copy loop (lines 76-78). -/
def copy_step (xp : List Logical) (yp : List Logical) (i : Nat) :
    Except Condition (List Logical) :=
  if rd xp i = Logical.NA_LOGICAL then .error (Condition.ArgExpectedNotNA "R")
  else .ok (yp.set i (rd xp i))

/-- The copy loop (lines 75-79) over offsets `0 .. len-1`. -/
def copy_loop (xp : List Logical) (len : Nat) (yp : List Logical) :
    Except Condition (List Logical) :=
  (List.range len).foldlM (copy_step xp) yp

/-- The assignment of line 84, in place on the buffer `yp`. -/
def warshall_step (n k i : Nat) (yp : List Logical) (j : Nat) : List Logical :=
  yp.set (i + n * j)
    (Logical.ofBool ((rd yp (i + n * j)).truthy ||
      ((rd yp (i + n * k)).truthy && (rd yp (k + n * j)).truthy)))

/-- The `j` loop (lines 83-85). -/
def warshall_j (n k : Nat) (yp : List Logical) (i : Nat) : List Logical :=
  (List.range n).foldl (warshall_step n k i) yp

/-- The `i` loop (lines 82-86). -/
def warshall_i (n : Nat) (yp : List Logical) (k : Nat) : List Logical :=
  (List.range n).foldl (warshall_j n k) yp

/-- The `k` loop (lines 81-87): Warshall's algorithm on the single buffer `yp`. -/
def warshall (n : Nat) (yp : List Logical) : List Logical :=
  (List.range n).foldl (warshall_i n) yp

/-- The function `rel_closure_transitive` (lines 63-90). -/
def rel_closure_transitive (x : LogicalMatrix) : Except Condition LogicalMatrix :=
  match prepare_arg_logical_square_matrix x "R" with
  | .error e => .error e
  | .ok x =>
    let n := x.nrow
    match copy_loop x.data (n * n) (Rf_allocVector (n * n)) with
    | .error e => .error e
    | .ok yp =>
      .ok { data := warshall n yp, nrow := x.nrow, ncol := x.ncol, dimnames := x.dimnames }

/-! ## `rel_reduction_transitive` -/

/-- The function `rel_reduction_transitive` (lines 103-111): the closure is computed, then
`Rf_error("TO DO")` is raised; the `return y` after it is never reached. -/
def rel_reduction_transitive (x : LogicalMatrix) : Except Condition LogicalMatrix :=
  match rel_closure_transitive x with
  | .error e => .error e
  | .ok _y => .error (Condition.Error "TO DO")

/-! ## `Sstat2` (`src/agops_classical.cpp`) -/

/-- Read of `x[i]` with an `int` index on a vector of `double`s, the doubles read as exact
rationals: `none` when the index lies outside `0 .. length-1`. -/
def readAt (x : List ℚ) (i : Int) : Option ℚ :=
  if 0 ≤ i then x[i.toNat]? else none

/-- The `while (1)` loop of `Sstat2` (lines 103-111), started with the given `h1` and `h2`:
the values of `m` and `mp1` at the `break`.  The `int`s are exact integers and `/` on them
truncates as in C.  The result is `none` when an index read lies outside the vector or when
the loop has not reached its `break` within `fuel` iterations. -/
def Sstat2_loop (x : List ℚ) (N : ℚ) : Nat → Int → Int → Option (Int × ℚ)
  | 0, _, _ => none
  | fuel + 1, h1, h2 =>
    let m : Int := (h2 + h1 + 1).tdiv 2
    let mp1 : ℚ := ((m + 1 : Int) : ℚ)
    match readAt x m with
    | none => none
    | some xm =>
      let xmulN : ℚ := N * xm
      if xmulN = mp1 ∨ h1 = h2 then some (m, mp1)
      else if xmulN < mp1 then Sstat2_loop x N fuel h1 (m - 1)
      else Sstat2_loop x N fuel m h2

/-- The function `Sstat2` (lines 91-127) on the vector `x` and the count `*n`: the value
written to `*out`, or `none` when an index read lies outside the vector or the loop has not
finished within `fuel` iterations. -/
def Sstat2 (fuel : Nat) (x : List ℚ) (n : Int) : Option ℚ :=
  let N : ℚ := (n : ℚ)
  match readAt x 0 with
  | none => none
  | some x0 =>
    if x0 < 1 / N then some x0
    else
      match Sstat2_loop x N fuel 0 (n - 1) with
      | none => none
      | some (m, mp1) =>
        if m + 1 < n then
          match readAt x (m + 1) with
          | none => none
          | some xm1 => if mp1 > N * xm1 then some (mp1 / N) else some xm1
        else some (mp1 / N)

/-! ## Vocabulary of the properties -/

/-- Entry `R(i, j)` of the relation: row `i`, column `j`, at offset `i + j*nrow`. -/
def LogicalMatrix.entry (x : LogicalMatrix) (i j : Nat) : Logical :=
  rd x.data (i + j * x.nrow)

/-- The matrix is an `n`×`n` relation. -/
def Square (n : Nat) (x : LogicalMatrix) : Prop :=
  x.nrow = n ∧ x.ncol = n ∧ x.data.length = n * n

instance (n : Nat) (x : LogicalMatrix) : Decidable (Square n x) := by
  unfold Square; infer_instance

/-- No cell of the matrix is `NA_LOGICAL`. -/
def FullyKnown (x : LogicalMatrix) : Prop :=
  ∀ v ∈ x.data, v ≠ Logical.NA_LOGICAL

instance (x : LogicalMatrix) : Decidable (FullyKnown x) := by
  unfold FullyKnown; infer_instance

/-- Transitivity in the usual sense: `R(i,j)` and `R(j,k)` together imply `R(i,k)`,
for all `i`, `j`, `k` (equal or not). -/
def IsTransitive (n : Nat) (x : LogicalMatrix) : Prop :=
  ∀ i < n, ∀ j < n, ∀ k < n,
    x.entry i j = Logical.TRUE → x.entry j k = Logical.TRUE → x.entry i k = Logical.TRUE

instance (n : Nat) (x : LogicalMatrix) : Decidable (IsTransitive n x) := by
  unfold IsTransitive; infer_instance

/-- The definition the spec says is checked: for all `i ≠ j`, if `R(i,j)` holds then for
all `k`, `R(j,k)` holding implies `R(i,k)` holding. -/
def IsTransitiveChecked (n : Nat) (x : LogicalMatrix) : Prop :=
  ∀ i < n, ∀ j < n, i ≠ j → x.entry i j = Logical.TRUE →
    ∀ k < n, x.entry j k = Logical.TRUE → x.entry i k = Logical.TRUE

/-- The relation `r` is a resolution of the `n`×`n` relation `x`: a fully-known `n`×`n`
relation that keeps every known entry of `x` (so only `NA_LOGICAL` entries were replaced). -/
def IsResolution (n : Nat) (x r : LogicalMatrix) : Prop :=
  Square n r ∧ FullyKnown r ∧
    ∀ i < n, ∀ j < n, x.entry i j ≠ Logical.NA_LOGICAL → r.entry i j = x.entry i j

/-- The relations `x` and `y` have the same off-diagonal entries. -/
def AgreeOffDiagonal (n : Nat) (x y : LogicalMatrix) : Prop :=
  ∀ i < n, ∀ j < n, i ≠ j → x.entry i j = y.entry i j

instance (n : Nat) (x y : LogicalMatrix) : Decidable (AgreeOffDiagonal n x y) := by
  unfold AgreeOffDiagonal; infer_instance

/-- Index `d` is touched by the relation: some off-diagonal entry of row `d` or of
column `d` is `TRUE`. -/
def Touched (n : Nat) (x : LogicalMatrix) (d : Nat) : Prop :=
  ∃ j < n, j ≠ d ∧ (x.entry d j = Logical.TRUE ∨ x.entry j d = Logical.TRUE)

instance (n : Nat) (x : LogicalMatrix) (d : Nat) : Decidable (Touched n x d) := by
  unfold Touched; infer_instance

/-- The value the assignment of line 84 computes for cell `(a, b)` in outer iteration `k`
when all three cells are read from the buffer `yp`. -/
def warshall_new (n k : Nat) (yp : List Logical) (a b : Nat) : Logical :=
  Logical.ofBool ((rd yp (a + n * b)).truthy ||
    ((rd yp (a + n * k)).truthy && (rd yp (k + n * b)).truthy))

/-- State of the buffer `zp` inside outer iteration `k`, which started from the buffer `yp`,
when the `i` loop is in row `i` and the `j` loop has done columns `0 .. m-1` of it: the cells
already visited hold their new value, the others still hold the value of `yp`. -/
def RowInv (n k : Nat) (yp : List Logical) (i m : Nat) (zp : List Logical) : Prop :=
  zp.length = n * n ∧
    ∀ a < n, ∀ b < n, rd zp (a + n * b) =
      if a < i ∨ (a = i ∧ b < m) then warshall_new n k yp a b else rd yp (a + n * b)

/-- The pair `(a, b)` is an edge of the `n`×`n` relation: both indices are below `n` and
`R(a, b)` is `TRUE`. -/
def Edge (n : Nat) (x : LogicalMatrix) (a b : Nat) : Prop :=
  a < n ∧ b < n ∧ x.entry a b = Logical.TRUE

instance (n : Nat) (x : LogicalMatrix) (a b : Nat) : Decidable (Edge n x a b) := by
  unfold Edge; infer_instance

/-- The vertices `a, m₁, …, mₗ, b` form a walk: each arrow `a → m₁`, `m₁ → m₂`, …, `mₗ → b`
is an edge.  The list holds the intermediate vertices; the walk has at least one edge. -/
def IsWalk (E : Nat → Nat → Prop) : Nat → List Nat → Nat → Prop
  | a, [], b => E a b
  | a, m :: ms, b => E a m ∧ IsWalk E m ms b

/-- There is a path of at least one edge from `a` to `b` all of whose intermediate vertices
are below `k`. -/
def PathBelow (E : Nat → Nat → Prop) (k a b : Nat) : Prop :=
  ∃ ms : List Nat, (∀ m ∈ ms, m < k) ∧ IsWalk E a ms b

/-- The term `min(x[i], (i+1)/n)` of the S-statistic. -/
def SstatTerm (x : List ℚ) (n i : Nat) : ℚ :=
  min (x.getD i 0) (((i : ℚ) + 1) / (n : ℚ))

/-- The value `r` is the maximum over `i` in `0 .. n-1` of `min(x[i], (i+1)/n)`: it is one
of the terms and no term exceeds it. -/
def IsSstat (x : List ℚ) (n : Nat) (r : ℚ) : Prop :=
  (∃ i < n, r = SstatTerm x n i) ∧ ∀ i < n, SstatTerm x n i ≤ r

/-- Position `i` lies in the part of the vector where `x[i] ≥ (i+1)/n`, written without the
division as the code compares it: `i + 1 ≤ N * x[i]`. -/
def Above (x : List ℚ) (n i : Nat) : Prop :=
  (i : ℚ) + 1 ≤ (n : ℚ) * x.getD i 0

/-! ## Concrete relations used as test inputs (buffers are column-major) -/

/-- The chain `0 → 1 → 2`: rows `[F,T,F]`, `[F,F,T]`, `[F,F,F]`. -/
def chain3 : LogicalMatrix :=
  { data := [.FALSE, .FALSE, .FALSE, .TRUE, .FALSE, .FALSE, .FALSE, .TRUE, .FALSE],
    nrow := 3, ncol := 3, dimnames := none }

/-- The 2-cycle `0 → 1 → 0` with a `FALSE` diagonal: rows `[F,T]`, `[T,F]`. -/
def cycle2 : LogicalMatrix :=
  { data := [.FALSE, .TRUE, .TRUE, .FALSE], nrow := 2, ncol := 2, dimnames := none }

/-- The full relation on two elements: rows `[T,T]`, `[T,T]`. -/
def full2 : LogicalMatrix :=
  { data := [.TRUE, .TRUE, .TRUE, .TRUE], nrow := 2, ncol := 2, dimnames := none }

/-- The chain `0 → 1 → 2` with `R(2,0)` unknown: rows `[F,T,F]`, `[F,F,T]`, `[NA,F,F]`. -/
def chainUnknown3 : LogicalMatrix :=
  { data := [.FALSE, .FALSE, .NA_LOGICAL, .TRUE, .FALSE, .FALSE, .FALSE, .TRUE, .FALSE],
    nrow := 3, ncol := 3, dimnames := none }

/-- A chain `1 → 2` beside an index 0 that relates only to itself: rows `[T,F,F]`,
`[F,F,T]`, `[F,F,F]`. -/
def loopChain3 : LogicalMatrix :=
  { data := [.TRUE, .FALSE, .FALSE, .FALSE, .FALSE, .FALSE, .FALSE, .TRUE, .FALSE],
    nrow := 3, ncol := 3, dimnames := none }

/-- The relation `loopChain3` without the self-loop: rows `[F,F,F]`, `[F,F,T]`, `[F,F,F]`. -/
def edge3 : LogicalMatrix :=
  { data := [.FALSE, .FALSE, .FALSE, .FALSE, .FALSE, .FALSE, .FALSE, .TRUE, .FALSE],
    nrow := 3, ncol := 3, dimnames := none }

/-- The closure of the chain `0 → 1 → 2`: rows `[F,T,T]`, `[F,F,T]`, `[F,F,F]`. -/
def chainClosure3 : LogicalMatrix :=
  { data := [.FALSE, .FALSE, .FALSE, .TRUE, .FALSE, .FALSE, .TRUE, .TRUE, .FALSE],
    nrow := 3, ncol := 3, dimnames := none }

/-- A relation with every off-diagonal entry `FALSE` and a mixed diagonal, carrying labels:
rows `[T,F,F]`, `[F,F,F]`, `[F,F,T]`. -/
def diag3 : LogicalMatrix :=
  { data := [.TRUE, .FALSE, .FALSE, .FALSE, .FALSE, .FALSE, .FALSE, .FALSE, .TRUE],
    nrow := 3, ncol := 3,
    dimnames := some { rows := some ["a", "b", "c"], cols := some ["a", "b", "c"] } }

/-- The relation with `R(0,1)` unknown, `R(1,2)` and `R(2,0)` `TRUE`, `R(1,0)` and every
other entry `FALSE`: rows `[F,NA,F]`, `[F,F,T]`, `[T,F,F]`. -/
def blamed3 : LogicalMatrix :=
  { data := [.FALSE, .FALSE, .TRUE, .NA_LOGICAL, .FALSE, .FALSE, .FALSE, .TRUE, .FALSE],
    nrow := 3, ncol := 3, dimnames := none }

/-! ## Offsets and buffers -/

open Logical

theorem idx_lt {n i j : Nat} (hi : i < n) (hj : j < n) : i + j * n < n * n := by
  have : (j + 1) * n ≤ n * n := Nat.mul_le_mul_right n hj
  nlinarith

theorem idx_inj {n i j i' j' : Nat} (hi : i < n) (hi' : i' < n)
    (h : i + j * n = i' + j' * n) : i = i' ∧ j = j' := by
  have hn : 0 < n := Nat.lt_of_le_of_lt (Nat.zero_le _) hi
  have h1 : (i + j * n) % n = i := by
    rw [Nat.add_mul_mod_self_right]; exact Nat.mod_eq_of_lt hi
  have h2 : (i' + j' * n) % n = i' := by
    rw [Nat.add_mul_mod_self_right]; exact Nat.mod_eq_of_lt hi'
  have hii : i = i' := by rw [← h1, ← h2, h]
  subst hii
  have : j * n = j' * n := Nat.add_left_cancel h
  exact ⟨rfl, Nat.eq_of_mul_eq_mul_right hn this⟩

theorem rd_mem {xp : List Logical} {i : Nat} (h : i < xp.length) : rd xp i ∈ xp := by
  unfold rd
  rw [List.getD_eq_getElem?_getD, List.getElem?_eq_getElem h]
  exact List.getElem_mem h

theorem rd_set_self {xp : List Logical} {i : Nat} (v : Logical) (h : i < xp.length) :
    rd (xp.set i v) i = v := by
  unfold rd
  rw [List.getD_eq_getElem?_getD, List.getElem?_set_self h]; rfl

theorem rd_set_ne {xp : List Logical} {i j : Nat} (v : Logical) (h : i ≠ j) :
    rd (xp.set i v) j = rd xp j := by
  unfold rd
  rw [List.getD_eq_getElem?_getD, List.getD_eq_getElem?_getD, List.getElem?_set_ne h]

theorem rd_ext {xp yp : List Logical} (hlen : xp.length = yp.length)
    (h : ∀ i < xp.length, rd xp i = rd yp i) : xp = yp := by
  apply List.ext_getElem hlen
  intro i h1 h2
  have := h i h1
  unfold rd at this
  rw [List.getD_eq_getElem?_getD, List.getD_eq_getElem?_getD, List.getElem?_eq_getElem h1,
    List.getElem?_eq_getElem h2] at this
  simpa using this

theorem findSome?_range_some {f : Nat → Option Logical} {n : Nat} {v : Logical}
    (h : (List.range n).findSome? f = some v) : ∃ i < n, f i = some v := by
  obtain ⟨a, ha, hfa⟩ := List.exists_of_findSome?_eq_some h
  exact ⟨a, List.mem_range.1 ha, hfa⟩

theorem findSome?_range_none {f : Nat → Option Logical} {n : Nat} :
    (List.range n).findSome? f = none ↔ ∀ i < n, f i = none := by
  rw [List.findSome?_eq_none_iff]
  constructor
  · intro h i hi; exact h i (List.mem_range.2 hi)
  · intro h i hi; exact h i (List.mem_range.1 hi)


/-- Two early-exit loops over the same range return the same thing when their bodies agree
at every iteration where the first body does not return `NA_LOGICAL`, provided the first
loop does not return `NA_LOGICAL`. -/
theorem findSome?_agree {f g : Nat → Option Logical} (l : List Nat)
    (h : ∀ a ∈ l, f a ≠ some NA_LOGICAL → g a = f a)
    (hf : l.findSome? f ≠ some NA_LOGICAL) : l.findSome? g = l.findSome? f := by
  induction l with
  | nil => rfl
  | cons a l ih =>
    have ih' := ih (fun b hb => h b (List.mem_cons_of_mem _ hb))
    cases hfa : f a with
    | none =>
      have hga : g a = none := by
        rw [h a (List.mem_cons_self _ _) (by rw [hfa]; simp), hfa]
      simp only [List.findSome?, hfa, hga] at hf ⊢
      exact ih' hf
    | some w =>
      simp only [List.findSome?, hfa] at hf
      have hga : g a = some w := by
        rw [h a (List.mem_cons_self _ _) (by rw [hfa]; exact hf), hfa]
      simp only [List.findSome?, hfa, hga]

theorem findSome?_range_congr {f g : Nat → Option Logical} {n : Nat}
    (h : ∀ i < n, f i = g i) : (List.range n).findSome? f = (List.range n).findSome? g := by
  have : ∀ l : List Nat, (∀ a ∈ l, f a = g a) → l.findSome? f = l.findSome? g := by
    intro l
    induction l with
    | nil => intro _; rfl
    | cons a l ih =>
      intro hl
      simp only [List.findSome?, hl a (List.mem_cons_self _ _)]
      rw [ih (fun b hb => hl b (List.mem_cons_of_mem _ hb))]
  exact this _ (fun a ha => h a (List.mem_range.1 ha))

theorem rel_is_transitive_k_ne_TRUE (n : Nat) (xp : List Logical) (i j k : Nat) :
    rel_is_transitive_k n xp i j k ≠ some TRUE := by
  unfold rel_is_transitive_k
  split
  · simp
  · split <;> simp

theorem rel_is_transitive_j_ne_TRUE (n : Nat) (xp : List Logical) (i j : Nat) :
    rel_is_transitive_j n xp i j ≠ some TRUE := by
  unfold rel_is_transitive_j
  split
  · simp
  · split
    · simp
    · split
      · simp
      · intro h
        obtain ⟨k, _, hk⟩ := findSome?_range_some h
        exact rel_is_transitive_k_ne_TRUE n xp i j k hk

/-- The verdict is `TRUE` exactly when no pair `(i, j)` makes the loop body return. -/
theorem rel_is_transitive_loops_eq_TRUE (n : Nat) (xp : List Logical) :
    rel_is_transitive_loops n xp = TRUE ↔
      ∀ i < n, ∀ j < n, rel_is_transitive_j n xp i j = none := by
  unfold rel_is_transitive_loops
  constructor
  · intro h
    split at h
    · rename_i v hv
      subst h
      obtain ⟨i, _, hi⟩ := findSome?_range_some hv
      obtain ⟨j, _, hj⟩ := findSome?_range_some hi
      exact absurd hj (rel_is_transitive_j_ne_TRUE n xp i j)
    · rename_i hv
      intro i hi
      exact findSome?_range_none.1 (findSome?_range_none.1 hv i hi)
  · intro h
    have : (List.range n).findSome?
        (fun i => (List.range n).findSome? (rel_is_transitive_j n xp i)) = none :=
      findSome?_range_none.2 (fun i hi => findSome?_range_none.2 (h i hi))
    rw [this]

/-- A verdict other than `TRUE` is the value returned by the body at some pair `(i, j)`. -/
theorem rel_is_transitive_loops_ne_TRUE {n : Nat} {xp : List Logical} {v : Logical}
    (h : rel_is_transitive_loops n xp = v) (hv : v ≠ TRUE) :
    ∃ i < n, ∃ j < n, rel_is_transitive_j n xp i j = some v := by
  unfold rel_is_transitive_loops at h
  split at h
  · rename_i w hw
    subst h
    obtain ⟨i, hi, hi'⟩ := findSome?_range_some hw
    obtain ⟨j, hj, hj'⟩ := findSome?_range_some hi'
    exact ⟨i, hi, j, hj, hj'⟩
  · exact absurd h.symm hv

theorem truthy_eq_true_of_ne_NA {v : Logical} (h : v ≠ NA_LOGICAL) :
    v.truthy = true ↔ v = TRUE := by
  cases v <;> simp [Logical.truthy] at h ⊢

theorem rel_is_transitive_k_eq_none {n : Nat} {xp : List Logical} {i j k : Nat} :
    rel_is_transitive_k n xp i j k = none ↔
      rd xp (i + k * n) ≠ NA_LOGICAL ∧ rd xp (j + k * n) ≠ NA_LOGICAL ∧
        (rd xp (j + k * n) = TRUE → rd xp (i + k * n) = TRUE) := by
  unfold rel_is_transitive_k
  generalize rd xp (i + k * n) = a
  generalize rd xp (j + k * n) = b
  cases a <;> cases b <;> simp [Logical.truthy]

theorem rel_is_transitive_k_eq_NA {n : Nat} {xp : List Logical} {i j k : Nat} :
    rel_is_transitive_k n xp i j k = some NA_LOGICAL ↔
      (rd xp (i + k * n) = NA_LOGICAL ∨ rd xp (j + k * n) = NA_LOGICAL) := by
  unfold rel_is_transitive_k
  generalize rd xp (i + k * n) = a
  generalize rd xp (j + k * n) = b
  cases a <;> cases b <;> simp [Logical.truthy]

theorem rel_is_transitive_k_eq_FALSE {n : Nat} {xp : List Logical} {i j k : Nat} :
    rel_is_transitive_k n xp i j k = some FALSE ↔
      (rd xp (i + k * n) = FALSE ∧ rd xp (j + k * n) = TRUE) := by
  unfold rel_is_transitive_k
  generalize rd xp (i + k * n) = a
  generalize rd xp (j + k * n) = b
  cases a <;> cases b <;> simp [Logical.truthy]

theorem rel_is_transitive_j_eq_none {n : Nat} {xp : List Logical} {i j : Nat} :
    rel_is_transitive_j n xp i j = none ↔
      (i = j ∨ rd xp (i + j * n) = FALSE ∨
        (rd xp (i + j * n) = TRUE ∧ ∀ k < n, rel_is_transitive_k n xp i j k = none)) := by
  unfold rel_is_transitive_j
  by_cases hij : i = j
  · simp [hij]
  · simp only [hij, if_false, false_or]
    generalize rd xp (i + j * n) = a
    cases a <;> simp [Logical.truthy, findSome?_range_none]

theorem prepare_of_square {n : Nat} {x : LogicalMatrix} (h : Square n x) (a : String) :
    prepare_arg_logical_square_matrix x a = .ok x := by
  obtain ⟨h1, h2, h3⟩ := h
  unfold prepare_arg_logical_square_matrix
  rw [if_pos]
  exact ⟨by rw [h1, h2], by rw [h1, h2, h3]⟩

theorem rel_is_transitive_of_square {n : Nat} {x : LogicalMatrix} (h : Square n x) :
    rel_is_transitive x = .ok (rel_is_transitive_loops n x.data) := by
  unfold rel_is_transitive
  rw [prepare_of_square h]
  simp only [h.1]

theorem entry_eq {n : Nat} {x : LogicalMatrix} (h : Square n x) (i j : Nat) :
    x.entry i j = rd x.data (i + j * n) := by
  unfold LogicalMatrix.entry; rw [h.1]

theorem entry_ne_NA {n : Nat} {x : LogicalMatrix} (h : Square n x) (hk : FullyKnown x)
    {i j : Nat} (hi : i < n) (hj : j < n) : x.entry i j ≠ NA_LOGICAL := by
  rw [entry_eq h]
  apply hk
  apply rd_mem
  rw [h.2.2]
  exact idx_lt hi hj

theorem isTransitiveChecked_iff (n : Nat) (x : LogicalMatrix) :
    IsTransitiveChecked n x ↔ IsTransitive n x := by
  constructor
  · intro h i hi j hj k hk hij hjk
    by_cases e : i = j
    · subst e; exact hjk
    · exact h i hi j hj e hij k hk hjk
  · intro h i hi j hj _ hij k hk hjk
    exact h i hi j hj k hk hij hjk

/-- On a fully-known relation the body of the pair loop falls through exactly when the pair
satisfies the checked condition. -/
theorem rel_is_transitive_j_eq_none_of_known {n : Nat} {x : LogicalMatrix} (h : Square n x)
    (hk : FullyKnown x) {i j : Nat} (hi : i < n) (hj : j < n) :
    rel_is_transitive_j n x.data i j = none ↔
      (i ≠ j → x.entry i j = TRUE → ∀ k < n, x.entry j k = TRUE → x.entry i k = TRUE) := by
  rw [rel_is_transitive_j_eq_none]
  have hij := entry_ne_NA h hk hi hj
  simp only [entry_eq h] at hij ⊢
  constructor
  · rintro (e | e | ⟨_, e⟩)
    · intro ne; exact absurd e ne
    · intro _ ht; rw [e] at ht; cases ht
    · intro _ _ k hk' hjk
      exact (rel_is_transitive_k_eq_none.1 (e k hk')).2.2 hjk
  · intro hc
    by_cases e : i = j
    · exact Or.inl e
    · right
      cases hv : rd x.data (i + j * n) with
      | FALSE => exact Or.inl rfl
      | NA_LOGICAL => exact absurd hv hij
      | TRUE =>
        right
        refine ⟨rfl, fun k hk' => ?_⟩
        rw [rel_is_transitive_k_eq_none]
        have h1 := entry_ne_NA h hk hi hk'
        have h2 := entry_ne_NA h hk hj hk'
        simp only [entry_eq h] at h1 h2
        exact ⟨h1, h2, hc e hv k hk'⟩

theorem rel_is_transitive_j_eq_NA {n : Nat} {xp : List Logical} {i j : Nat}
    (h : rel_is_transitive_j n xp i j = some NA_LOGICAL) :
    rd xp (i + j * n) = NA_LOGICAL ∨
      ∃ k < n, rd xp (i + k * n) = NA_LOGICAL ∨ rd xp (j + k * n) = NA_LOGICAL := by
  unfold rel_is_transitive_j at h
  split at h
  · cases h
  · split at h
    · left; assumption
    · split at h
      · cases h
      · right
        obtain ⟨k, hk, hk'⟩ := findSome?_range_some h
        exact ⟨k, hk, rel_is_transitive_k_eq_NA.1 hk'⟩

theorem rel_is_transitive_loops_ne_NA {n : Nat} {x : LogicalMatrix} (h : Square n x)
    (hk : FullyKnown x) : rel_is_transitive_loops n x.data ≠ NA_LOGICAL := by
  intro hv
  obtain ⟨i, hi, j, hj, hb⟩ := rel_is_transitive_loops_ne_TRUE hv (by decide)
  rcases rel_is_transitive_j_eq_NA hb with e | ⟨k, hk', e | e⟩
  · exact entry_ne_NA h hk hi hj (by rw [entry_eq h]; exact e)
  · exact entry_ne_NA h hk hi hk' (by rw [entry_eq h]; exact e)
  · exact entry_ne_NA h hk hj hk' (by rw [entry_eq h]; exact e)

theorem rel_is_transitive_loops_iff {n : Nat} {x : LogicalMatrix} (h : Square n x)
    (hk : FullyKnown x) : rel_is_transitive_loops n x.data = TRUE ↔ IsTransitive n x := by
  rw [rel_is_transitive_loops_eq_TRUE, ← isTransitiveChecked_iff]
  constructor
  · intro hall i hi j hj ne hij k hk' hjk
    exact (rel_is_transitive_j_eq_none_of_known h hk hi hj).1 (hall i hi j hj) ne hij k hk' hjk
  · intro hc i hi j hj
    exact (rel_is_transitive_j_eq_none_of_known h hk hi hj).2
      (fun ne hij k hk' hjk => hc i hi j hj ne hij k hk' hjk)

theorem rel_is_transitive_k_agree {n : Nat} {xp rp : List Logical} {i j k : Nat}
    (hi : rd xp (i + k * n) ≠ NA_LOGICAL → rd rp (i + k * n) = rd xp (i + k * n))
    (hj : rd xp (j + k * n) ≠ NA_LOGICAL → rd rp (j + k * n) = rd xp (j + k * n))
    (h : rel_is_transitive_k n xp i j k ≠ some NA_LOGICAL) :
    rel_is_transitive_k n rp i j k = rel_is_transitive_k n xp i j k := by
  have h1 : rd xp (i + k * n) ≠ NA_LOGICAL := fun e =>
    h (rel_is_transitive_k_eq_NA.2 (Or.inl e))
  have h2 : rd xp (j + k * n) ≠ NA_LOGICAL := fun e =>
    h (rel_is_transitive_k_eq_NA.2 (Or.inr e))
  unfold rel_is_transitive_k
  rw [hi h1, hj h2]

theorem rel_is_transitive_j_agree {n : Nat} {xp rp : List Logical} {i j : Nat}
    (hi : i < n) (hj : j < n)
    (hr : ∀ a < n, ∀ b < n, rd xp (a + b * n) ≠ NA_LOGICAL →
      rd rp (a + b * n) = rd xp (a + b * n))
    (h : rel_is_transitive_j n xp i j ≠ some NA_LOGICAL) :
    rel_is_transitive_j n rp i j = rel_is_transitive_j n xp i j := by
  unfold rel_is_transitive_j at h ⊢
  by_cases e : i = j
  · simp [e]
  · simp only [e, if_false] at h ⊢
    by_cases hna : rd xp (i + j * n) = NA_LOGICAL
    · simp [hna] at h
    · rw [hr i hi j hj hna]
      simp only [hna, if_false] at h ⊢
      split
      · rfl
      · rename_i ht
        simp only [ht, if_false] at h
        apply findSome?_agree _ _ h
        intro k hk hk'
        have hk := List.mem_range.1 hk
        exact rel_is_transitive_k_agree (hr i hi k hk) (hr j hj k hk) hk'

/-- A verdict other than `NA_LOGICAL` is kept by every buffer that keeps the known cells. -/
theorem rel_is_transitive_loops_agree {n : Nat} {xp rp : List Logical}
    (hr : ∀ a < n, ∀ b < n, rd xp (a + b * n) ≠ NA_LOGICAL →
      rd rp (a + b * n) = rd xp (a + b * n))
    (h : rel_is_transitive_loops n xp ≠ NA_LOGICAL) :
    rel_is_transitive_loops n rp = rel_is_transitive_loops n xp := by
  have hf : (List.range n).findSome?
      (fun i => (List.range n).findSome? (rel_is_transitive_j n xp i)) ≠ some NA_LOGICAL := by
    intro e
    apply h
    unfold rel_is_transitive_loops
    rw [e]
  have := findSome?_agree (f := fun i => (List.range n).findSome? (rel_is_transitive_j n xp i))
    (g := fun i => (List.range n).findSome? (rel_is_transitive_j n rp i)) (List.range n)
    (fun i hi hne => findSome?_agree _
      (fun j hj hne' => rel_is_transitive_j_agree (List.mem_range.1 hi) (List.mem_range.1 hj)
        hr hne') hne) hf
  unfold rel_is_transitive_loops
  rw [this]

theorem rel_is_transitive_of_resolution {n : Nat} {x r : LogicalMatrix} (hsq : Square n x)
    (hr : IsResolution n x r) {v : Logical} (hv : v ≠ NA_LOGICAL)
    (h : rel_is_transitive x = .ok v) : rel_is_transitive r = .ok v := by
  rw [rel_is_transitive_of_square hsq] at h
  injection h with h
  rw [rel_is_transitive_of_square hr.1, ← h]
  congr 1
  apply rel_is_transitive_loops_agree
  · intro a ha b hb hne
    have := hr.2.2 a ha b hb (by rw [entry_eq hsq]; exact hne)
    rw [entry_eq hsq, entry_eq hr.1] at this
    exact this
  · rw [h]; exact hv

theorem rel_is_transitive_j_congr_diag {n : Nat} {x y : LogicalMatrix} (hx : Square n x)
    (hy : Square n y) (hoff : AgreeOffDiagonal n x y)
    (hdiag : ∀ d < n, Touched n x d → x.entry d d = y.entry d d)
    {i j : Nat} (hi : i < n) (hj : j < n) :
    rel_is_transitive_j n x.data i j = rel_is_transitive_j n y.data i j := by
  unfold rel_is_transitive_j
  by_cases e : i = j
  · simp [e]
  · have hij := hoff i hi j hj e
    rw [entry_eq hx, entry_eq hy] at hij
    simp only [e, if_false, ← hij]
    by_cases hna : rd x.data (i + j * n) = NA_LOGICAL
    · simp [hna]
    · simp only [hna, if_false]
      split
      · rfl
      · rename_i ht
        have hT : x.entry i j = TRUE := by
          rw [entry_eq hx]
          cases hv : rd x.data (i + j * n) with
          | FALSE => rw [hv] at ht; simp [Logical.truthy] at ht
          | TRUE => rfl
          | NA_LOGICAL => exact absurd hv hna
        apply findSome?_range_congr
        intro k hk
        have h1 : rd x.data (i + k * n) = rd y.data (i + k * n) := by
          rw [← entry_eq hx, ← entry_eq hy]
          by_cases eik : i = k
          · subst eik
            exact hdiag i hi ⟨j, hj, fun h => e h.symm, Or.inl hT⟩
          · exact hoff i hi k hk eik
        have h2 : rd x.data (j + k * n) = rd y.data (j + k * n) := by
          rw [← entry_eq hx, ← entry_eq hy]
          by_cases ejk : j = k
          · subst ejk
            exact hdiag j hj ⟨i, hi, e, Or.inr hT⟩
          · exact hoff j hj k hk ejk
        unfold rel_is_transitive_k
        rw [h1, h2]

/-- C10: for every input matrix (square or not, with or without `NA_LOGICAL` cells, of any
size including 0), `rel_reduction_transitive` ends in an error and never returns a matrix. -/
theorem rel_reduction_transitive_never_returns (x : LogicalMatrix) :
    (∃ e, rel_reduction_transitive x = .error e) ∧
    ∀ y, rel_reduction_transitive x ≠ .ok y := by
  unfold rel_reduction_transitive
  cases rel_closure_transitive x with
  | error e => exact ⟨⟨e, rfl⟩, fun y h => by cases h⟩
  | ok y => exact ⟨⟨_, rfl⟩, fun y h => by cases h⟩

/-! ## The copy loop -/

theorem copy_loop_succ (xp yp : List Logical) (m : Nat) :
    copy_loop xp (m + 1) yp =
      match copy_loop xp m yp with
      | .error e => .error e
      | .ok zp => copy_step xp zp m := by
  unfold copy_loop
  rw [List.range_succ, List.foldlM_append]
  cases List.foldlM (copy_step xp) yp (List.range m) with
  | error e => rfl
  | ok zp =>
    show List.foldlM (copy_step xp) zp [m] = copy_step xp zp m
    rw [List.foldlM_cons]
    cases copy_step xp zp m <;> rfl

/-- What the copy loop does over offsets `0 .. m-1`: it raises the missing-value error when
one of the cells read is `NA_LOGICAL`; otherwise it has copied exactly those cells. -/
theorem copy_loop_spec (xp yp : List Logical) (m : Nat) :
    ((∃ i < m, rd xp i = NA_LOGICAL) ∧
      copy_loop xp m yp = .error (Condition.ArgExpectedNotNA "R")) ∨
    ((∀ i < m, rd xp i ≠ NA_LOGICAL) ∧
      ∃ zp, copy_loop xp m yp = .ok zp ∧ zp.length = yp.length ∧
        (∀ i, i < m → i < yp.length → rd zp i = rd xp i) ∧
        (∀ i, m ≤ i → rd zp i = rd yp i)) := by
  induction m with
  | zero =>
    right
    exact ⟨fun i hi => absurd hi (Nat.not_lt_zero i), yp, rfl, rfl,
      fun i hi => absurd hi (Nat.not_lt_zero i), fun _ _ => rfl⟩
  | succ m ih =>
    rw [copy_loop_succ]
    rcases ih with ⟨⟨i, hi, hna⟩, herr⟩ | ⟨hk, zp, hok, hlen, hcopied, hrest⟩
    · left
      exact ⟨⟨i, Nat.lt_succ_of_lt hi, hna⟩, by rw [herr]⟩
    · rw [hok]
      simp only
      unfold copy_step
      by_cases hna : rd xp m = NA_LOGICAL
      · left
        exact ⟨⟨m, Nat.lt_succ_self m, hna⟩, by rw [if_pos hna]⟩
      · right
        rw [if_neg hna]
        refine ⟨?_, zp.set m (rd xp m), rfl, ?_, ?_, ?_⟩
        · intro i hi
          rcases Nat.lt_succ_iff_lt_or_eq.1 hi with h | h
          · exact hk i h
          · rw [h]; exact hna
        · rw [List.length_set, hlen]
        · intro i hi hlt
          rcases Nat.lt_succ_iff_lt_or_eq.1 hi with h | h
          · rw [rd_set_ne _ (Nat.ne_of_gt h)]
            exact hcopied i h hlt
          · subst h
            exact rd_set_self _ (by rw [hlen]; exact hlt)
        · intro i hi
          rw [rd_set_ne _ (Nat.ne_of_lt hi)]
          exact hrest i (Nat.le_of_succ_le hi)

/-- On a buffer of `len` cells none of which is `NA_LOGICAL`, the copy loop returns a copy of
the buffer, whatever the destination held before. -/
theorem copy_loop_ok {xp yp : List Logical} {len : Nat} (hx : xp.length = len)
    (hy : yp.length = len) (hk : ∀ v ∈ xp, v ≠ NA_LOGICAL) : copy_loop xp len yp = .ok xp := by
  rcases copy_loop_spec xp yp len with ⟨⟨i, hi, hna⟩, _⟩ | ⟨_, zp, hok, hlen, hcopied, _⟩
  · exact absurd hna (hk _ (rd_mem (by rw [hx]; exact hi)))
  · rw [hok]
    congr 1
    apply rd_ext (by rw [hlen, hy, hx])
    intro i hi
    rw [hlen, hy] at hi
    exact hcopied i hi (by rw [hy]; exact hi)

/-- The cells `Rf_allocVector` leaves uninitialised are never observed: the outcome of the
copy loop does not depend on what the destination buffer held. -/
theorem copy_loop_alloc_irrelevant {xp yp yp' : List Logical} {len : Nat}
    (hy : yp.length = len) (hy' : yp'.length = len) :
    copy_loop xp len yp = copy_loop xp len yp' := by
  rcases copy_loop_spec xp yp len with ⟨⟨i, hi, hna⟩, herr⟩ | ⟨hk, zp, hok, hlen, hcopied, _⟩
  · rcases copy_loop_spec xp yp' len with ⟨_, herr'⟩ | ⟨hk', _⟩
    · rw [herr, herr']
    · exact absurd hna (hk' i hi)
  · rcases copy_loop_spec xp yp' len with ⟨⟨i, hi, hna⟩, _⟩ | ⟨_, zp', hok', hlen', hcopied', _⟩
    · exact absurd hna (hk i hi)
    · rw [hok, hok']
      congr 1
      apply rd_ext (by rw [hlen, hlen', hy, hy'])
      intro i hi
      rw [hlen, hy] at hi
      rw [hcopied i hi (by rw [hy]; exact hi), hcopied' i hi (by rw [hy']; exact hi)]

theorem copy_loop_error {xp yp : List Logical} {len : Nat} (hx : xp.length = len)
    (hna : ∃ v ∈ xp, v = NA_LOGICAL) :
    copy_loop xp len yp = .error (Condition.ArgExpectedNotNA "R") := by
  rcases copy_loop_spec xp yp len with ⟨_, herr⟩ | ⟨hk, _⟩
  · exact herr
  · obtain ⟨v, hv, e⟩ := hna
    obtain ⟨i, hi, hiv⟩ := List.getElem_of_mem hv
    have : rd xp i = v := by
      unfold rd
      rw [List.getD_eq_getElem?_getD, List.getElem?_eq_getElem hi, hiv]; rfl
    exact absurd (this.trans e) (hk i (by rw [← hx]; exact hi))

theorem Rf_allocVector_length (len : Nat) : (Rf_allocVector len).length = len := by
  unfold Rf_allocVector; simp

/-! ## One outer iteration of Warshall's algorithm, in place -/

theorem idx_lt' {n i j : Nat} (hi : i < n) (hj : j < n) : i + n * j < n * n := by
  rw [Nat.mul_comm n j]; exact idx_lt hi hj

theorem idx_inj' {n i j i' j' : Nat} (hi : i < n) (hi' : i' < n)
    (h : i + n * j = i' + n * j') : i = i' ∧ j = j' := by
  rw [Nat.mul_comm n j, Nat.mul_comm n j'] at h; exact idx_inj hi hi' h

theorem truthy_ofBool (b : Bool) : (Logical.ofBool b).truthy = b := by
  cases b <;> rfl

theorem ofBool_ne_NA (b : Bool) : Logical.ofBool b ≠ NA_LOGICAL := by
  cases b <;> simp [Logical.ofBool]

/-- Within outer iteration `k` the cells of column `k` keep their truth value. -/
theorem RowInv.col_k {n k i m : Nat} {yp zp : List Logical} (h : RowInv n k yp i m zp)
    (hk : k < n) {a : Nat} (ha : a < n) :
    (rd zp (a + n * k)).truthy = (rd yp (a + n * k)).truthy := by
  rw [h.2 a ha k hk]
  split
  · unfold warshall_new
    rw [truthy_ofBool]
    cases (rd yp (a + n * k)).truthy <;> simp
  · rfl

/-- Within outer iteration `k` the cells of row `k` keep their truth value. -/
theorem RowInv.row_k {n k i m : Nat} {yp zp : List Logical} (h : RowInv n k yp i m zp)
    (hk : k < n) {b : Nat} (hb : b < n) :
    (rd zp (k + n * b)).truthy = (rd yp (k + n * b)).truthy := by
  rw [h.2 k hk b hb]
  split
  · unfold warshall_new
    rw [truthy_ofBool]
    cases (rd yp (k + n * b)).truthy <;> simp
  · rfl

theorem RowInv.step {n k i m : Nat} {yp zp : List Logical} (h : RowInv n k yp i m zp)
    (hk : k < n) (hi : i < n) (hm : m < n) :
    RowInv n k yp i (m + 1) (warshall_step n k i zp m) := by
  have hval : Logical.ofBool ((rd zp (i + n * m)).truthy ||
      ((rd zp (i + n * k)).truthy && (rd zp (k + n * m)).truthy)) = warshall_new n k yp i m := by
    unfold warshall_new
    rw [h.col_k hk hi, h.row_k hk hm, h.2 i hi m hm, if_neg]
    rintro (e | ⟨_, e⟩)
    · exact Nat.lt_irrefl _ e
    · exact Nat.lt_irrefl _ e
  unfold warshall_step
  rw [hval]
  refine ⟨by rw [List.length_set]; exact h.1, ?_⟩
  intro a ha b hb
  by_cases e : i + n * m = a + n * b
  · obtain ⟨e1, e2⟩ := idx_inj' hi ha e
    subst e1; subst e2
    rw [rd_set_self _ (by rw [h.1]; exact idx_lt' hi hm), if_pos]
    exact Or.inr ⟨rfl, Nat.lt_succ_self _⟩
  · rw [rd_set_ne _ e, h.2 a ha b hb]
    have hne : ¬ (a = i ∧ b = m) := by
      rintro ⟨e1, e2⟩; subst e1; subst e2; exact e rfl
    have hiff : (a < i ∨ (a = i ∧ b < m + 1)) ↔ (a < i ∨ (a = i ∧ b < m)) := by
      constructor
      · rintro (h1 | ⟨h1, h2⟩)
        · exact Or.inl h1
        · rcases Nat.lt_succ_iff_lt_or_eq.1 h2 with h3 | h3
          · exact Or.inr ⟨h1, h3⟩
          · exact absurd ⟨h1, h3⟩ hne
      · rintro (h1 | ⟨h1, h2⟩)
        · exact Or.inl h1
        · exact Or.inr ⟨h1, Nat.lt_succ_of_lt h2⟩
    simp only [hiff]

theorem RowInv.j_loop {n k i : Nat} {yp zp : List Logical} (h : RowInv n k yp i 0 zp)
    (hk : k < n) (hi : i < n) (m : Nat) (hm : m ≤ n) :
    RowInv n k yp i m ((List.range m).foldl (warshall_step n k i) zp) := by
  induction m with
  | zero => exact h
  | succ m ih =>
    rw [List.range_succ, List.foldl_append]
    exact (ih (Nat.le_of_succ_le hm)).step hk hi hm

theorem RowInv.next_row {n k i : Nat} {yp zp : List Logical} (h : RowInv n k yp i n zp) :
    RowInv n k yp (i + 1) 0 zp := by
  refine ⟨h.1, fun a ha b hb => ?_⟩
  rw [h.2 a ha b hb]
  have hiff : (a < i ∨ (a = i ∧ b < n)) ↔ (a < i + 1 ∨ (a = i + 1 ∧ b < 0)) := by
    constructor
    · rintro (h1 | ⟨h1, _⟩)
      · exact Or.inl (Nat.lt_succ_of_lt h1)
      · exact Or.inl (by rw [h1]; exact Nat.lt_succ_self _)
    · rintro (h1 | ⟨_, h2⟩)
      · rcases Nat.lt_succ_iff_lt_or_eq.1 h1 with h3 | h3
        · exact Or.inl h3
        · exact Or.inr ⟨h3, hb⟩
      · exact absurd h2 (Nat.not_lt_zero _)
  simp only [hiff]

theorem RowInv.i_loop {n k : Nat} {yp : List Logical} (hy : yp.length = n * n) (hk : k < n)
    (i : Nat) (hi : i ≤ n) :
    RowInv n k yp i 0 ((List.range i).foldl (warshall_j n k) yp) := by
  induction i with
  | zero =>
    refine ⟨hy, fun a _ b _ => ?_⟩
    rw [if_neg]
    · rfl
    · rintro (e | ⟨_, e⟩) <;> exact Nat.not_lt_zero _ e
  | succ i ih =>
    rw [List.range_succ, List.foldl_append]
    exact ((ih (Nat.le_of_succ_le hi)).j_loop hk hi n (Nat.le_refl n)).next_row

/-- One outer iteration of the in-place loop nest computes the simultaneous update: every
cell gets the value line 84 computes from the buffer the iteration started with. -/
theorem warshall_i_spec {n k : Nat} {yp : List Logical} (hy : yp.length = n * n) (hk : k < n) :
    (warshall_i n yp k).length = n * n ∧
      ∀ a < n, ∀ b < n, rd (warshall_i n yp k) (a + n * b) = warshall_new n k yp a b := by
  have h := RowInv.i_loop hy hk n (Nat.le_refl n)
  refine ⟨h.1, fun a ha b hb => ?_⟩
  unfold warshall_i
  rw [h.2 a ha b hb, if_pos (Or.inl ha)]

/-! ## Paths -/

theorem IsWalk.concat {E : Nat → Nat → Prop} {c b : Nat} {ms' : List Nat} :
    ∀ {a : Nat} {ms : List Nat}, IsWalk E a ms c → IsWalk E c ms' b →
      IsWalk E a (ms ++ c :: ms') b
  | _, [], h1, h2 => ⟨h1, h2⟩
  | _, _ :: _, h1, h2 => ⟨h1.1, IsWalk.concat h1.2 h2⟩

theorem PathBelow.mono {E : Nat → Nat → Prop} {k k' a b : Nat} (hk : k ≤ k')
    (h : PathBelow E k a b) : PathBelow E k' a b := by
  obtain ⟨ms, hms, hw⟩ := h
  exact ⟨ms, fun m hm => Nat.lt_of_lt_of_le (hms m hm) hk, hw⟩

theorem PathBelow.trans {E : Nat → Nat → Prop} {k a c b : Nat} (hc : c < k)
    (h1 : PathBelow E k a c) (h2 : PathBelow E k c b) : PathBelow E k a b := by
  obtain ⟨ms, hms, hw⟩ := h1
  obtain ⟨ms', hms', hw'⟩ := h2
  refine ⟨ms ++ c :: ms', ?_, hw.concat hw'⟩
  intro m hm
  rcases List.mem_append.1 hm with h | h
  · exact hms m h
  · rcases List.mem_cons.1 h with h | h
    · rw [h]; exact hc
    · exact hms' m h

theorem PathBelow.edge {E : Nat → Nat → Prop} {k a b : Nat} (h : E a b) : PathBelow E k a b :=
  ⟨[], ⟨fun _ hm => absurd hm (List.not_mem_nil _), h⟩⟩

theorem pathBelow_zero {E : Nat → Nat → Prop} {a b : Nat} : PathBelow E 0 a b ↔ E a b := by
  constructor
  · rintro ⟨ms, hms, hw⟩
    cases ms with
    | nil => exact hw
    | cons m ms => exact absurd (hms m (List.mem_cons_self _ _)) (Nat.not_lt_zero _)
  · exact PathBelow.edge

/-- A walk whose intermediate vertices are at most `k` either avoids `k`, or splits into a
walk to `k` and a walk from `k` that both avoid `k` as an intermediate vertex. -/
theorem IsWalk.split_at {E : Nat → Nat → Prop} {k b : Nat} :
    ∀ (ms : List Nat) (a : Nat), (∀ m ∈ ms, m < k + 1) → IsWalk E a ms b →
      PathBelow E k a b ∨ (PathBelow E k a k ∧ PathBelow E k k b)
  | [], _, _, hw => Or.inl (PathBelow.edge hw)
  | m :: ms, a, hms, hw => by
    have ih := IsWalk.split_at ms m (fun m' hm' => hms m' (List.mem_cons_of_mem _ hm')) hw.2
    have hm : m < k + 1 := hms m (List.mem_cons_self _ _)
    rcases Nat.lt_succ_iff_lt_or_eq.1 hm with hlt | heq
    · rcases ih with h | ⟨h1, h2⟩
      · exact Or.inl (PathBelow.trans hlt (PathBelow.edge hw.1) h)
      · exact Or.inr ⟨PathBelow.trans hlt (PathBelow.edge hw.1) h1, h2⟩
    · subst heq
      rcases ih with h | ⟨_, h2⟩
      · exact Or.inr ⟨PathBelow.edge hw.1, h⟩
      · exact Or.inr ⟨PathBelow.edge hw.1, h2⟩

theorem pathBelow_succ {E : Nat → Nat → Prop} {k a b : Nat} :
    PathBelow E (k + 1) a b ↔
      PathBelow E k a b ∨ (PathBelow E k a k ∧ PathBelow E k k b) := by
  constructor
  · rintro ⟨ms, hms, hw⟩
    exact hw.split_at ms a hms
  · rintro (h | ⟨h1, h2⟩)
    · exact h.mono (Nat.le_succ k)
    · exact PathBelow.trans (Nat.lt_succ_self k) (h1.mono (Nat.le_succ k))
        (h2.mono (Nat.le_succ k))

/-- Every walk of a relation lies inside each transitive relation that contains its edges. -/
theorem IsWalk.in_transitive {E S : Nat → Nat → Prop}
    (hsub : ∀ a b, E a b → S a b) (htr : ∀ a b c, S a b → S b c → S a c) {b : Nat} :
    ∀ (ms : List Nat) (a : Nat), IsWalk E a ms b → S a b
  | [], a, hw => hsub a b hw
  | m :: ms, a, hw => htr a m b (hsub a m hw.1) (IsWalk.in_transitive hsub htr ms m hw.2)

/-! ## The loop invariant of Warshall's algorithm -/

theorem warshall_succ (n : Nat) (yp : List Logical) (k : Nat) :
    (List.range (k + 1)).foldl (warshall_i n) yp =
      warshall_i n ((List.range k).foldl (warshall_i n) yp) k := by
  rw [List.range_succ, List.foldl_append]; rfl

/-- After `k` outer iterations cell `(a, b)` is true exactly when there is a path from `a`
to `b` whose intermediate vertices are all below `k`. -/
theorem warshall_invariant {n : Nat} {xp : List Logical} (hx : xp.length = n * n)
    (E : Nat → Nat → Prop)
    (hE : ∀ a < n, ∀ b < n, ((rd xp (a + n * b)).truthy = true ↔ E a b))
    (k : Nat) (hk : k ≤ n) :
    ((List.range k).foldl (warshall_i n) xp).length = n * n ∧
      ∀ a < n, ∀ b < n,
        ((rd ((List.range k).foldl (warshall_i n) xp) (a + n * b)).truthy = true ↔
          PathBelow E k a b) := by
  induction k with
  | zero =>
    refine ⟨hx, fun a ha b hb => ?_⟩
    rw [pathBelow_zero]
    exact hE a ha b hb
  | succ k ih =>
    obtain ⟨hlen, hinv⟩ := ih (Nat.le_of_succ_le hk)
    have hk' : k < n := hk
    obtain ⟨hlen', hnew⟩ := warshall_i_spec hlen hk'
    rw [warshall_succ]
    refine ⟨hlen', fun a ha b hb => ?_⟩
    rw [hnew a ha b hb, pathBelow_succ, ← hinv a ha b hb, ← hinv a ha k hk', ← hinv k hk' b hb]
    unfold warshall_new
    rw [truthy_ofBool]
    simp only [Bool.or_eq_true, Bool.and_eq_true]

theorem warshall_step_known {n k i j : Nat} {yp : List Logical}
    (h : ∀ v ∈ yp, v ≠ NA_LOGICAL) : ∀ v ∈ warshall_step n k i yp j, v ≠ NA_LOGICAL := by
  intro v hv
  unfold warshall_step at hv
  rcases List.mem_or_eq_of_mem_set hv with h1 | h1
  · exact h v h1
  · rw [h1]; exact ofBool_ne_NA _

theorem foldl_range_preserves {P : List Logical → Prop} {f : List Logical → Nat → List Logical}
    (hf : ∀ yp i, P yp → P (f yp i)) (m : Nat) (yp : List Logical) (h : P yp) :
    P ((List.range m).foldl f yp) := by
  induction m with
  | zero => exact h
  | succ m ih =>
    rw [List.range_succ, List.foldl_append]
    exact hf _ _ ih

theorem warshall_known {n : Nat} {yp : List Logical} (h : ∀ v ∈ yp, v ≠ NA_LOGICAL) :
    ∀ v ∈ warshall n yp, v ≠ NA_LOGICAL := by
  unfold warshall
  apply foldl_range_preserves (P := fun yp => ∀ v ∈ yp, v ≠ NA_LOGICAL) _ n yp h
  intro yp k hyp
  unfold warshall_i
  apply foldl_range_preserves (P := fun yp => ∀ v ∈ yp, v ≠ NA_LOGICAL) _ n yp hyp
  intro yp i hyp
  unfold warshall_j
  apply foldl_range_preserves (P := fun yp => ∀ v ∈ yp, v ≠ NA_LOGICAL) _ n yp hyp
  intro yp j hyp
  exact warshall_step_known hyp

/-! ## `rel_closure_transitive` on a square matrix -/

theorem eq_TRUE_iff_truthy {v : Logical} (h : v ≠ NA_LOGICAL) :
    v = TRUE ↔ v.truthy = true :=
  (truthy_eq_true_of_ne_NA h).symm

/-- Every offset below `n*n` is the offset of a cell `(i, j)` with `i, j < n`. -/
theorem idx_decompose {n idx : Nat} (h : idx < n * n) :
    ∃ i < n, ∃ j < n, idx = i + j * n := by
  have hn : 0 < n := by
    rcases Nat.eq_zero_or_pos n with e | e
    · subst e; simp at h
    · exact e
  refine ⟨idx % n, Nat.mod_lt _ hn, idx / n, Nat.div_lt_of_lt_mul h, ?_⟩
  rw [Nat.mul_comm]
  exact (Nat.mod_add_div idx n).symm

theorem fullyKnown_iff_entries {n : Nat} {x : LogicalMatrix} (hsq : Square n x) :
    FullyKnown x ↔ ∀ i < n, ∀ j < n, x.entry i j ≠ NA_LOGICAL := by
  constructor
  · intro hk i hi j hj
    exact entry_ne_NA hsq hk hi hj
  · intro h v hv e
    obtain ⟨idx, hidx, hval⟩ := List.getElem_of_mem hv
    rw [hsq.2.2] at hidx
    obtain ⟨i, hi, j, hj, rfl⟩ := idx_decompose hidx
    apply h i hi j hj
    rw [entry_eq hsq]
    unfold rd
    rw [List.getD_eq_getElem?_getD, List.getElem?_eq_getElem (by rw [hsq.2.2]; exact hidx),
      hval, e]
    rfl

theorem matrix_ext {n : Nat} {y z : LogicalMatrix} (hy : Square n y) (hz : Square n z)
    (hd : y.dimnames = z.dimnames) (h : ∀ i < n, ∀ j < n, y.entry i j = z.entry i j) :
    y = z := by
  have hdata : y.data = z.data := by
    apply rd_ext (by rw [hy.2.2, hz.2.2])
    intro idx hidx
    rw [hy.2.2] at hidx
    obtain ⟨i, hi, j, hj, rfl⟩ := idx_decompose hidx
    rw [← entry_eq hy, ← entry_eq hz]
    exact h i hi j hj
  obtain ⟨yd, yr, yc, yn⟩ := y
  obtain ⟨zd, zr, zc, zn⟩ := z
  obtain ⟨h1, h2, _⟩ := hy
  obtain ⟨h3, h4, _⟩ := hz
  simp only at h1 h2 h3 h4 hd hdata
  subst h1; subst h2; subst hd; subst hdata; subst h3; subst h4
  rfl

/-- The error path: a square matrix with an `NA_LOGICAL` cell makes the copy loop raise the
missing-value error. -/
theorem rel_closure_transitive_error {n : Nat} {x : LogicalMatrix} (hsq : Square n x)
    (hna : ¬ FullyKnown x) :
    rel_closure_transitive x = .error (Condition.ArgExpectedNotNA "R") := by
  unfold rel_closure_transitive
  rw [prepare_of_square hsq]
  simp only
  have : ∃ v ∈ x.data, v = NA_LOGICAL := by
    unfold FullyKnown at hna
    push_neg at hna
    exact hna
  rw [copy_loop_error (by rw [hsq.2.2, hsq.1]) this]

/-- The normal path: on a fully-known square matrix the function returns the buffer produced
by the Warshall loops, with `dim` and `dimnames` of the input. -/
theorem rel_closure_transitive_ok {n : Nat} {x : LogicalMatrix} (hsq : Square n x)
    (hk : FullyKnown x) :
    rel_closure_transitive x =
      .ok { data := warshall n x.data, nrow := x.nrow, ncol := x.ncol,
            dimnames := x.dimnames } := by
  unfold rel_closure_transitive
  rw [prepare_of_square hsq]
  simp only
  rw [copy_loop_ok (by rw [hsq.2.2, hsq.1]) (Rf_allocVector_length _) hk, hsq.1]

/-- What `rel_closure_transitive` returns on a fully-known `n`×`n` relation: a fully-known
`n`×`n` relation with the same `dimnames` whose `TRUE` entries are exactly the pairs joined
by a path of at least one edge. -/
theorem rel_closure_transitive_spec {n : Nat} {x : LogicalMatrix} (hsq : Square n x)
    (hk : FullyKnown x) :
    ∃ y, rel_closure_transitive x = .ok y ∧ Square n y ∧ FullyKnown y ∧
      y.dimnames = x.dimnames ∧
      ∀ a < n, ∀ b < n, (y.entry a b = TRUE ↔ PathBelow (Edge n x) n a b) := by
  have hE : ∀ a < n, ∀ b < n, ((rd x.data (a + n * b)).truthy = true ↔ Edge n x a b) := by
    intro a ha b hb
    have hne := entry_ne_NA hsq hk ha hb
    rw [← eq_TRUE_iff_truthy (by rw [Nat.mul_comm, ← entry_eq hsq]; exact hne),
      Nat.mul_comm, ← entry_eq hsq]
    exact ⟨fun h => ⟨ha, hb, h⟩, fun h => h.2.2⟩
  have hw : (List.range n).foldl (warshall_i n) x.data = warshall n x.data := rfl
  obtain ⟨hlen, hinv⟩ := warshall_invariant hsq.2.2 (Edge n x) hE n (Nat.le_refl n)
  rw [hw] at hlen hinv
  have hknown : ∀ v ∈ warshall n x.data, v ≠ NA_LOGICAL := warshall_known hk
  refine ⟨_, rel_closure_transitive_ok hsq hk, ⟨hsq.1, hsq.2.1, hlen⟩, hknown, rfl, ?_⟩
  intro a ha b hb
  rw [← hinv a ha b hb]
  show rd (warshall n x.data) (a + b * x.nrow) = TRUE ↔ _
  rw [hsq.1, Nat.mul_comm b n]
  exact eq_TRUE_iff_truthy (hknown _ (rd_mem (by rw [hlen]; exact idx_lt' ha hb)))

/-! ## Properties of the closure -/

theorem closure_transitive_of_paths {n : Nat} {x y : LogicalMatrix}
    (h : ∀ a < n, ∀ b < n, (y.entry a b = TRUE ↔ PathBelow (Edge n x) n a b)) :
    IsTransitive n y := by
  intro i hi j hj k hk hij hjk
  exact (h i hi k hk).2 (PathBelow.trans hj ((h i hi j hj).1 hij) ((h j hj k hk).1 hjk))

theorem path_in_transitive {n : Nat} {x s : LogicalMatrix} (hst : IsTransitive n s)
    (hsub : ∀ i < n, ∀ j < n, x.entry i j = TRUE → s.entry i j = TRUE) {a b k : Nat}
    (h : PathBelow (Edge n x) k a b) : s.entry a b = TRUE := by
  obtain ⟨ms, _, hw⟩ := h
  have : Edge n s a b :=
    IsWalk.in_transitive (E := Edge n x) (S := Edge n s)
      (fun a b hab => ⟨hab.1, hab.2.1, hsub a hab.1 b hab.2.1 hab.2.2⟩)
      (fun a b c hab hbc =>
        ⟨hab.1, hbc.2.1, hst a hab.1 b hab.2.1 c hbc.2.1 hab.2.2 hbc.2.2⟩) ms a hw
  exact this.2.2

/-- C14: for the 3×3 chain `[[F,T,F],[F,F,T],[F,F,F]]`, `rel_closure_transitive` returns
`[[F,T,T],[F,F,T],[F,F,F]]`, `rel_is_transitive` returns `FALSE` on the chain and `TRUE` on
its closure. -/
theorem chain_example :
    rel_closure_transitive chain3 = .ok chainClosure3 ∧
    (∀ i < 3, ∀ j < 3, chain3.entry i j =
      (if (i, j) = (0, 1) ∨ (i, j) = (1, 2) then TRUE else FALSE)) ∧
    (∀ i < 3, ∀ j < 3, chainClosure3.entry i j =
      (if (i, j) = (0, 1) ∨ (i, j) = (0, 2) ∨ (i, j) = (1, 2) then TRUE else FALSE)) ∧
    rel_is_transitive chain3 = .ok FALSE ∧
    rel_is_transitive chainClosure3 = .ok TRUE :=
  ⟨rfl, by decide, by decide, rfl, rfl⟩

/-! ## The exact condition for a `TRUE` verdict -/

theorem entries_eq_of_TRUE_iff {n : Nat} {x y : LogicalMatrix} (hx : Square n x)
    (hxk : FullyKnown x) (hy : Square n y) (hyk : FullyKnown y) {i j : Nat} (hi : i < n)
    (hj : j < n) (h : y.entry i j = TRUE ↔ x.entry i j = TRUE) : y.entry i j = x.entry i j := by
  have h1 := entry_ne_NA hx hxk hi hj
  have h2 := entry_ne_NA hy hyk hi hj
  revert h h1 h2
  cases x.entry i j <;> cases y.entry i j <;> simp

/-- The closure of a fully-known relation equals the relation, entry by entry, exactly when
the relation is transitive. -/
theorem closure_fixed_iff {n : Nat} {x : LogicalMatrix} (hsq : Square n x)
    (hk : FullyKnown x) :
    ∃ y, rel_closure_transitive x = .ok y ∧
      ((∀ i < n, ∀ j < n, y.entry i j = x.entry i j) ↔ IsTransitive n x) := by
  obtain ⟨y, hy, hysq, hyk, _, hpath⟩ := rel_closure_transitive_spec hsq hk
  refine ⟨y, hy, ?_, ?_⟩
  · intro heq i hi j hj k hk' hij hjk
    have ht : IsTransitive n y := closure_transitive_of_paths hpath
    rw [← heq i hi j hj] at hij
    rw [← heq j hj k hk'] at hjk
    rw [← heq i hi k hk']
    exact ht i hi j hj k hk' hij hjk
  · intro ht i hi j hj
    apply entries_eq_of_TRUE_iff hsq hk hysq hyk hi hj
    rw [hpath i hi j hj]
    exact ⟨fun h => path_in_transitive ht (fun _ _ _ _ h => h) h,
      fun h => PathBelow.edge ⟨hi, hj, h⟩⟩

theorem IsWalk.mono_edges {E F : Nat → Nat → Prop} (h : ∀ a b, E a b → F a b) {b : Nat} :
    ∀ (ms : List Nat) (a : Nat), IsWalk E a ms b → IsWalk F a ms b
  | [], a, hw => h a b hw
  | m :: ms, a, hw => ⟨h a m hw.1, IsWalk.mono_edges h ms m hw.2⟩

/-- C18: the 3×3 relation with `R(0,1)` unknown, `R(1,2)` and `R(2,0)` `TRUE` and every other
entry `FALSE` gets the verdict `NA_LOGICAL`, although every resolution of its unknown entry
gets the verdict `FALSE`: the scan meets the unknown cell `(0,1)` before the known violation
`R(1,2)`, `R(2,0)`, not `R(1,0)`. -/
theorem rel_is_transitive_NA_not_tight :
    Square 3 blamed3 ∧ rel_is_transitive blamed3 = .ok NA_LOGICAL ∧
    (∀ i < 3, ∀ j < 3, blamed3.entry i j = NA_LOGICAL ↔ (i = 0 ∧ j = 1)) ∧
    (∃ r, IsResolution 3 blamed3 r) ∧
    ∀ r, IsResolution 3 blamed3 r → rel_is_transitive r = .ok FALSE := by
  refine ⟨by decide, rfl, by decide, ?_, ?_⟩
  · refine ⟨{ data := [.FALSE, .FALSE, .TRUE, .TRUE, .FALSE, .FALSE, .FALSE, .TRUE, .FALSE],
              nrow := 3, ncol := 3, dimnames := none }, by decide, by decide, by decide⟩
  · intro r hr
    obtain ⟨hsq, hk, hkeep⟩ := hr
    rw [rel_is_transitive_of_square hsq]
    have hnt : ¬ IsTransitive 3 r := by
      intro ht
      have h12 : r.entry 1 2 = TRUE := hkeep 1 (by decide) 2 (by decide) (by decide)
      have h20 : r.entry 2 0 = TRUE := hkeep 2 (by decide) 0 (by decide) (by decide)
      have h10 : r.entry 1 0 = FALSE := hkeep 1 (by decide) 0 (by decide) (by decide)
      have := ht 1 (by decide) 2 (by decide) 0 (by decide) h12 h20
      rw [h10] at this
      cases this
    have h1 := rel_is_transitive_loops_iff hsq hk
    have h2 := rel_is_transitive_loops_ne_NA hsq hk
    cases hv : rel_is_transitive_loops 3 r.data with
    | FALSE => rfl
    | TRUE => exact absurd (h1.1 hv) hnt
    | NA_LOGICAL => exact absurd hv h2

/-! ## The loop invariant, stated on the working buffer -/

theorem warshall_prefix_known {n : Nat} {yp : List Logical} (h : ∀ v ∈ yp, v ≠ NA_LOGICAL)
    (k : Nat) : ∀ v ∈ (List.range k).foldl (warshall_i n) yp, v ≠ NA_LOGICAL := by
  apply foldl_range_preserves (P := fun yp => ∀ v ∈ yp, v ≠ NA_LOGICAL) _ k yp h
  intro yp k hyp
  unfold warshall_i
  apply foldl_range_preserves (P := fun yp => ∀ v ∈ yp, v ≠ NA_LOGICAL) _ n yp hyp
  intro yp i hyp
  unfold warshall_j
  apply foldl_range_preserves (P := fun yp => ∀ v ∈ yp, v ≠ NA_LOGICAL) _ n yp hyp
  intro yp j hyp
  exact warshall_step_known hyp

/-- The intermediate vertices of a walk of an `n`×`n` relation are below `n`. -/
theorem IsWalk.below {n : Nat} {x : LogicalMatrix} {b : Nat} :
    ∀ (ms : List Nat) (a : Nat), IsWalk (Edge n x) a ms b → ∀ m ∈ ms, m < n
  | [], _, _, m, hm => absurd hm (List.not_mem_nil _)
  | m' :: ms, _, hw, m, hm => by
    rcases List.mem_cons.1 hm with e | e
    · rw [e]; exact hw.1.2.1
    · exact IsWalk.below ms m' hw.2 m e

theorem pathBelow_n_iff {n : Nat} {x : LogicalMatrix} {a b : Nat} :
    PathBelow (Edge n x) n a b ↔ ∃ ms, IsWalk (Edge n x) a ms b :=
  ⟨fun ⟨ms, _, hw⟩ => ⟨ms, hw⟩, fun ⟨ms, hw⟩ => ⟨ms, IsWalk.below ms a hw, hw⟩⟩

theorem readAt_nat {x : List ℚ} {i : Nat} (h : i < x.length) :
    readAt x (i : Int) = some (x.getD i 0) := by
  unfold readAt
  rw [if_pos (Int.ofNat_nonneg i), Int.toNat_ofNat, List.getD_eq_getElem?_getD,
    List.getElem?_eq_getElem h]
  rfl

theorem getD_antitone {x : List ℚ} (hs : List.Pairwise (· ≥ ·) x) {i j : Nat} (hij : i ≤ j)
    (hj : j < x.length) : x.getD j 0 ≤ x.getD i 0 := by
  rcases Nat.eq_or_lt_of_le hij with e | hlt
  · rw [e]
  · have hi : i < x.length := Nat.lt_trans hlt hj
    have := List.pairwise_iff_getElem.1 hs i j hi hj hlt
    rw [List.getD_eq_getElem?_getD, List.getD_eq_getElem?_getD, List.getElem?_eq_getElem hi,
      List.getElem?_eq_getElem hj]
    exact this

/-- One iteration of the loop with `h1 = a`, `h2 = b` nonnegative: `m` is `(a+b+1)/2`. -/
theorem Sstat2_loop_succ (x : List ℚ) (N : ℚ) (fuel a b : Nat)
    (h : (a + b + 1) / 2 < x.length) :
    Sstat2_loop x N (fuel + 1) (a : Int) (b : Int) =
      if N * x.getD ((a + b + 1) / 2) 0 = (((a + b + 1) / 2 : Nat) : ℚ) + 1 ∨ a = b then
        some ((((a + b + 1) / 2 : Nat) : Int), (((a + b + 1) / 2 : Nat) : ℚ) + 1)
      else if N * x.getD ((a + b + 1) / 2) 0 < (((a + b + 1) / 2 : Nat) : ℚ) + 1 then
        Sstat2_loop x N fuel (a : Int) ((((a + b + 1) / 2 : Nat) : Int) - 1)
      else Sstat2_loop x N fuel (((a + b + 1) / 2 : Nat) : Int) (b : Int) := by
  have hm : ((b : Int) + (a : Int) + 1).tdiv 2 = (((a + b + 1) / 2 : Nat) : Int) := by
    rw [Int.tdiv_eq_ediv (by omega) (by omega)]
    omega
  rw [Sstat2_loop]
  simp only [hm, readAt_nat h, Int.cast_add, Int.cast_natCast, Int.cast_one, Nat.cast_inj]

/-- Positions after a position that is not `Above` are not `Above` either. -/
theorem not_above_of_lt {x : List ℚ} {n : Nat} (hlen : x.length = n)
    (hs : List.Pairwise (· ≥ ·) x) {c i : Nat} (hci : c ≤ i) (hi : i < n)
    (hc : (n : ℚ) * x.getD c 0 ≤ (c : ℚ) + 1) (hne : c ≠ i) : ¬ Above x n i := by
  unfold Above
  have hN : (0 : ℚ) ≤ (n : ℚ) := Nat.cast_nonneg n
  have h1 : x.getD i 0 ≤ x.getD c 0 := getD_antitone hs hci (by rw [hlen]; exact hi)
  have h2 : (n : ℚ) * x.getD i 0 ≤ (n : ℚ) * x.getD c 0 := mul_le_mul_of_nonneg_left h1 hN
  have h3 : (c : ℚ) + 1 ≤ (i : ℚ) := by
    have : c + 1 ≤ i := Nat.lt_of_le_of_ne hci hne
    exact_mod_cast this
  intro h
  linarith

/-- Positions before an `Above` position are `Above`. -/
theorem above_of_le {x : List ℚ} {n : Nat} (hlen : x.length = n)
    (hs : List.Pairwise (· ≥ ·) x) {i t : Nat} (hit : i ≤ t) (ht : t < n)
    (h : Above x n t) : Above x n i := by
  unfold Above at h ⊢
  have hN : (0 : ℚ) ≤ (n : ℚ) := Nat.cast_nonneg n
  have h1 : x.getD t 0 ≤ x.getD i 0 := getD_antitone hs hit (by rw [hlen]; exact ht)
  have h2 : (n : ℚ) * x.getD t 0 ≤ (n : ℚ) * x.getD i 0 := mul_le_mul_of_nonneg_left h1 hN
  have h3 : (i : ℚ) ≤ (t : ℚ) := by exact_mod_cast hit
  linarith

/-- The binary search: started with `h1 = a ≤ h2 = b < n`, position `a` `Above` and no
position after `b` `Above`, the loop reaches its `break` within `b - a + 1` iterations,
reads only inside the vector, and leaves in `m` the last `Above` position `t`, with
`mp1 = t + 1`. -/
theorem Sstat2_loop_spec {x : List ℚ} {n : Nat} (hlen : x.length = n)
    (hs : List.Pairwise (· ≥ ·) x) :
    ∀ (fuel a b : Nat), a ≤ b → b < n → b - a < fuel → Above x n a →
      (∀ i, b < i → i < n → ¬ Above x n i) →
      ∃ t : Nat, Sstat2_loop x (n : ℚ) fuel (a : Int) (b : Int) = some ((t : Int), (t : ℚ) + 1) ∧
        t < n ∧ Above x n t ∧ ∀ i, t < i → i < n → ¬ Above x n i := by
  intro fuel
  induction fuel with
  | zero => intro a b _ _ h; exact absurd h (Nat.not_lt_zero _)
  | succ fuel ih =>
    intro a b hab hb hfuel hA hB
    have hc1 : a ≤ (a + b + 1) / 2 := by omega
    have hc2 : (a + b + 1) / 2 ≤ b := by omega
    have hcn : (a + b + 1) / 2 < n := Nat.lt_of_le_of_lt hc2 hb
    rw [Sstat2_loop_succ x (n : ℚ) fuel a b (by rw [hlen]; exact hcn)]
    generalize hc : (a + b + 1) / 2 = c at hc1 hc2 hcn ⊢
    by_cases hbreak : (n : ℚ) * x.getD c 0 = (c : ℚ) + 1 ∨ a = b
    · rw [if_pos hbreak]
      refine ⟨c, rfl, hcn, ?_, ?_⟩
      · rcases hbreak with e | e
        · unfold Above; rw [e]
        · have : c = a := by omega
          rw [this]; exact hA
      · intro i hci hi
        rcases hbreak with e | e
        · exact not_above_of_lt hlen hs (Nat.le_of_lt hci) hi (le_of_eq e) (Nat.ne_of_lt hci)
        · have : c = b := by omega
          exact hB i (by omega) hi
    · rw [if_neg hbreak]
      have hne : a ≠ b := fun e => hbreak (Or.inr e)
      have hac : a < c := by omega
      by_cases hlt : (n : ℚ) * x.getD c 0 < (c : ℚ) + 1
      · rw [if_pos hlt]
        have hcast : ((c : Int) - 1) = ((c - 1 : Nat) : Int) := by omega
        rw [hcast]
        apply ih a (c - 1) (by omega) (by omega) (by omega) hA
        intro i hci hi
        by_cases e : c = i
        · subst e
          unfold Above
          exact not_le.2 hlt
        · exact not_above_of_lt hlen hs (by omega) hi (le_of_lt hlt) e
      · rw [if_neg hlt]
        apply ih c b hc2 hb (by omega) _ hB
        unfold Above
        exact not_lt.1 hlt

/-! ## `Sstat2`: the value returned -/

theorem sstatTerm_of_above {x : List ℚ} {n i : Nat} (hn : 1 ≤ n) (h : Above x n i) :
    SstatTerm x n i = ((i : ℚ) + 1) / (n : ℚ) := by
  have hN : (0 : ℚ) < (n : ℚ) := by exact_mod_cast hn
  unfold SstatTerm
  apply min_eq_right
  rw [div_le_iff₀ hN, mul_comm]
  exact h

theorem sstatTerm_of_not_above {x : List ℚ} {n i : Nat} (hn : 1 ≤ n) (h : ¬ Above x n i) :
    SstatTerm x n i = x.getD i 0 := by
  have hN : (0 : ℚ) < (n : ℚ) := by exact_mod_cast hn
  unfold SstatTerm
  apply min_eq_left
  rw [le_div_iff₀ hN, mul_comm]
  exact le_of_lt (not_le.1 h)

theorem sstatTerm_le_getD (x : List ℚ) (n i : Nat) : SstatTerm x n i ≤ x.getD i 0 :=
  min_le_left _ _

theorem sstatTerm_le_frac (x : List ℚ) (n i : Nat) :
    SstatTerm x n i ≤ ((i : ℚ) + 1) / (n : ℚ) :=
  min_le_right _ _

theorem frac_mono {n i t : Nat} (hit : i ≤ t) :
    ((i : ℚ) + 1) / (n : ℚ) ≤ ((t : ℚ) + 1) / (n : ℚ) := by
  apply div_le_div_of_nonneg_right _ (Nat.cast_nonneg n)
  have : (i : ℚ) ≤ (t : ℚ) := by exact_mod_cast hit
  linarith

end Agop
